import Mathlib

/-!
Verification of the span-recovery core of `uie/extraction/predict_parser/utils.py`.

The Python source recovers `<unk>` placeholders in a generated span by aligning the
span against the raw source text, using `re` patterns of the restricted shape
`LIT (\s*\S+\s*|\s*\S+?\s*) LIT ...` built by `clean_wildcard` and `str.join`.

Strings are modelled as `List Char` (Python strings are sequences of code points,
so `[::-1]` is `List.reverse`).  Fallible Python code (regex compile errors,
`ValueError` from `str.split('')`, `IndexError` from list indexing) is modelled
with `Except Unit`.  The `re` engine is modelled by `parseRegex` (scanner plus
quantifier/alternation assembly for the fragment of regex syntax these
constructed patterns live in: literals and escaped punctuation, the classes
`\d`/`\s`/`\S`, control and octal escapes, the anchors `^` and `$`, top-level
alternation `|`, and the quantifiers `*`, `+`, `?`, `{m}`, `{m,}`, `{m,n}` with
optional lazy `?`, with CPython's `re.error` cases reproduced as `none`) and
`mexec`/`tryAlts`/`reSearch` (leftmost search with standard backtracking
semantics: greedy quantifiers try longest first, lazy ones shortest first, a
leftmost match position beats a preferred alternative).  On every pattern the
source can construct from a backslash-free span, `parseRegex` agrees with
CPython's `re.compile`; its conservative extra `none` cases are confined to
exotic backslash escapes (see `tokenStepCons`), and no theorem below depends on
the behaviour of those inputs.
-/

namespace UIE

/-- Python's whitespace set: the code points for which `str.isspace()` holds and
which `\s` matches in unicode mode.  Both `str.strip()` and the `\s*` / `\S+`
pattern atoms in the source use this set. -/
def pySpace (c : Char) : Bool :=
  decide (c.toNat ∈ ([0x20, 0x09, 0x0a, 0x0b, 0x0c, 0x0d, 0x1c, 0x1d, 0x1e, 0x1f,
    0x85, 0xa0, 0x1680, 0x2000, 0x2001, 0x2002, 0x2003, 0x2004, 0x2005, 0x2006,
    0x2007, 0x2008, 0x2009, 0x200a, 0x2028, 0x2029, 0x202f, 0x205f, 0x3000] : List Nat))

/-- Python `str.strip()`: drop leading and trailing whitespace. -/
def pyStrip (s : List Char) : List Char :=
  ((s.dropWhile pySpace).reverse.dropWhile pySpace).reverse

/-- Length of the maximal whitespace run at the head of `s`. -/
def wsRun (s : List Char) : Nat :=
  (s.takeWhile pySpace).length

/-- Length of the maximal non-whitespace run at the head of `s`. -/
def nwsRun (s : List Char) : Nat :=
  (s.takeWhile (fun c => !pySpace c)).length

/-- Python `str.find`: index of the first occurrence of `sub` in `s`
(`some 0` for the empty `sub`, like Python), `none` when absent. -/
def findSubIdx : List Char → List Char → Option Nat
  | s, sub =>
    if sub.isPrefixOf s then some 0
    else
      match s with
      | [] => none
      | _ :: s' => (findSubIdx s' sub).map (· + 1)

/-- Python `sub in s` (substring containment; the empty string is in every string). -/
def containsSub (s sub : List Char) : Bool :=
  (findSubIdx s sub).isSome

/-- Python list indexing `l[i]` with negative-index wraparound; `none` models
`IndexError`. -/
def pyIdx {α : Type} (l : List α) (i : Int) : Option α :=
  if 0 ≤ i then l.get? i.toNat
  else if i.natAbs ≤ l.length then l.get? (l.length - i.natAbs) else none

/-- Python slicing `l[a:b]` for nonnegative bounds (out-of-range bounds clamp). -/
def pySlice {α : Type} (a b : Nat) (l : List α) : List α :=
  (l.take b).drop a

/-- Helper for `pySplit`, with fuel (any fuel above `s.length` gives Python's
`str.split` for a nonempty separator). -/
def pySplitAux (sep : List Char) : Nat → List Char → List (List Char)
  | 0, s => [s]
  | fuel + 1, s =>
    match findSubIdx s sep with
    | none => [s]
    | some i => s.take i :: pySplitAux sep fuel (s.drop (i + sep.length))

/-- Python `s.split(sep)` for a nonempty separator `sep`. -/
def pySplit (s sep : List Char) : List (List Char) :=
  pySplitAux sep (s.length + 1) s

/-- Python `sep.join(pieces)` (`joinSep sep [] = ""`, `joinSep sep [x] = x`). -/
def joinSep {α : Type} (sep : List α) : List (List α) → List α
  | [] => []
  | [x] => x
  | x :: xs => x ++ sep ++ joinSep sep xs

/-- The characters escaped by `clean_wildcard` (`sp = ".*?()[]+"` in the source). -/
def spChars : List Char := ['.', '*', '?', '(', ')', '[', ']', '+']

/-- `clean_wildcard`: prefix a backslash to each occurrence of a character of
`sp = ".*?()[]+"` (the effect of the source's `re.sub`). -/
def clean_wildcard (x : List Char) : List Char :=
  x.flatMap (fun c => if c ∈ spChars then ['\\', c] else [c])

/-- The greedy wildcard connector string `\s*\S+\s*` used by the source's joins. -/
def fwdConnStr : List Char := ['\\', 's', '*', '\\', 'S', '+', '\\', 's', '*']

/-- The lazy wildcard connector string `\s*\S+?\s*`. -/
def revConnStr : List Char := ['\\', 's', '*', '\\', 'S', '+', '?', '\\', 's', '*']

/-- The forward pattern string of the source
(`r'\s*\S+\s*'.join([clean_wildcard(item.strip()) for item in span.split(unk)])`). -/
def forwardPatternStr (span unk : List Char) : List Char :=
  joinSep fwdConnStr ((pySplit span unk).map (fun item => clean_wildcard (pyStrip item)))

/-- The reversed pattern string of the source
(`r'\s*\S+?\s*'.join([clean_wildcard(item.strip()[::-1]) for item in span.split(unk)][::-1])`). -/
def reversePatternStr (span unk : List Char) : List Char :=
  joinSep revConnStr
    (((pySplit span unk).map (fun item => clean_wildcard (pyStrip item).reverse)).reverse)

/-- Atoms of the modelled regex fragment: a literal character, the
single-character classes `\d` / `\s` / `\S`, the anchors `^` and `$`, and a
brace/star/plus/question quantifier `repeatR base m n lazyQ` (at least `m` and,
when `n = some nv`, at most `nv` repetitions of the single-character atom
`base`; `lazyQ` selects the lazy backtracking order).  `\s*` is
`repeatR wsChar 0 none false`, `\S+` is `repeatR nwsChar 1 none false`, and
`\S+?` is `repeatR nwsChar 1 none true`, exactly as CPython's `sre` compiles
them. -/
inductive RElem : Type
  | lit (c : Char)
  | digitChar
  | wsChar
  | nwsChar
  | caret
  | dollar
  | repeatR (base : RElem) (m : Nat) (n : Option Nat) (lazyQ : Bool)
deriving DecidableEq, Repr

/-- The single-character atoms a quantifier may legally follow; a quantifier
after anything else is CPython's "multiple repeat" / "nothing to repeat"
`re.error`. -/
def repeatable : RElem → Bool
  | RElem.lit _ => true
  | RElem.digitChar => true
  | RElem.wsChar => true
  | RElem.nwsChar => true
  | _ => false

/-- The character predicate of a single-character atom (used to run a
quantifier; quantifiers are only ever applied to `repeatable` atoms). -/
def elemPred : RElem → Char → Bool
  | RElem.lit c, d => d = c
  | RElem.digitChar, d => d.isDigit
  | RElem.wsChar, d => pySpace d
  | RElem.nwsChar, d => !pySpace d
  | _, _ => false

/-- Tokens produced by the pattern scanner: a pattern element, a quantifier
(from `*`, `+`, `?`, `{m}`, `{m,}`, `{m,n}`, each with an optional lazy `?`
suffix), or a top-level alternation bar `|`. -/
inductive RTok : Type
  | elem (e : RElem)
  | quant (m : Nat) (n : Option Nat) (lazyQ : Bool)
  | altSep
deriving DecidableEq, Repr

/-- Decimal value of a digit string (CPython accepts leading zeros in brace
quantifiers). -/
def natOfDigits (ds : List Char) : Nat :=
  ds.foldl (fun a c => a * 10 + (c.toNat - 48)) 0

/-- Octal value of a digit string (for `\0oo` escapes). -/
def octVal (ds : List Char) : Nat :=
  ds.foldl (fun a c => a * 8 + (c.toNat - 48)) 0

/-- Octal digit test. -/
def isOctDigit (c : Char) : Bool :=
  decide ('0' ≤ c) && decide (c ≤ '7')

/-- Scan the text after an opening `\x7b` for a valid brace-quantifier body
`digits \x7d` or `digits , digits \x7d` (either digit group possibly empty when
a comma is present; with neither digits nor a comma the brace is a literal, as
in CPython).  Returns the bounds and the remaining text. -/
def scanQuant (rest : List Char) : Option (Nat × Option Nat × List Char) :=
  let d1 := rest.takeWhile Char.isDigit
  let r1 := rest.drop d1.length
  if r1.head? = some '\x7d' then
    if d1.isEmpty then none else some (natOfDigits d1, some (natOfDigits d1), r1.tail)
  else if r1.head? = some ',' then
    let r2 := r1.tail
    let d2 := r2.takeWhile Char.isDigit
    let r3 := r2.drop d2.length
    if r3.head? = some '\x7d' then
      some (natOfDigits d1, if d2.isEmpty then none else some (natOfDigits d2), r3.tail)
    else none
  else none

/-- The scanner's handling of a backslash escape `\c2`: escaped punctuation is
a literal, `\s`/`\S`/`\d` are classes, `\a\n\t\r\f\v` controls, `\0` plus up to
two octal digits an octal character code.  `none` models `re.error`: for `c2`
among `1`-`9` it is exactly CPython's "invalid group reference" (these patterns
contain no groups, since `(` is always escaped); for the other unhandled ASCII
alphanumerics (`\w`, `\b`, `\x41`, ...) it is a conservative model boundary,
reachable only from spans that contain a backslash, and no theorem below
depends on those inputs. -/
def escTok (c2 : Char) (rest' : List Char) : Option (Option (RTok × List Char)) :=
  if c2 = 's' then some (some (RTok.elem RElem.wsChar, rest'))
  else if c2 = 'S' then some (some (RTok.elem RElem.nwsChar, rest'))
  else if c2 = 'd' then some (some (RTok.elem RElem.digitChar, rest'))
  else if c2 = 'a' then some (some (RTok.elem (RElem.lit '\x07'), rest'))
  else if c2 = 'n' then some (some (RTok.elem (RElem.lit '\n'), rest'))
  else if c2 = 't' then some (some (RTok.elem (RElem.lit '\t'), rest'))
  else if c2 = 'r' then some (some (RTok.elem (RElem.lit '\x0d'), rest'))
  else if c2 = 'f' then some (some (RTok.elem (RElem.lit '\x0c'), rest'))
  else if c2 = 'v' then some (some (RTok.elem (RElem.lit '\x0b'), rest'))
  else if c2 = '0' then
    some (some (RTok.elem (RElem.lit (Char.ofNat
        (octVal ('0' :: (rest'.takeWhile isOctDigit).take 2)))),
      rest'.drop ((rest'.takeWhile isOctDigit).take 2).length))
  else if c2.isAlphanum then none
  else some (some (RTok.elem (RElem.lit c2), rest'))

/-- The scanner's handling of an opening brace: a valid quantifier body (with
optional lazy `?` suffix) yields a quantifier token, anything else leaves the
brace a literal, as in CPython. -/
def braceTok (rest : List Char) : Option (Option (RTok × List Char)) :=
  match scanQuant rest with
  | some (m, n, r2) =>
    if r2.head? = some '?' then some (some (RTok.quant m n true, r2.tail))
    else some (some (RTok.quant m n false, r2))
  | none => some (some (RTok.elem (RElem.lit '\x7b'), rest))

/-- One step of the pattern scanner on a nonempty input `c :: rest`:
`some (some (tok, rest'))` is one token plus the remaining text, `none` models
`re.error` during scanning.  It covers everything `re` can meet in a pattern
built by the source from a backslash-free span: unescaped `|`, `^`, `$`, the
quantifiers `*`/`+`/`?`/braces (with lazy `?` suffixes), literal braces, plain
literal characters, and (via `escTok`) all escapes the construction can
produce.  An unescaped character of `sp = ".*?()[]+"` other than the
quantifiers is mapped to `none`; it never occurs in a constructed pattern
(`clean_wildcard` escapes exactly those characters). -/
def tokenStepCons (c : Char) (rest : List Char) : Option (Option (RTok × List Char)) :=
  if c = '\\' then
    match rest with
    | [] => none
    | c2 :: rest' => escTok c2 rest'
  else if c = '|' then some (some (RTok.altSep, rest))
  else if c = '^' then some (some (RTok.elem RElem.caret, rest))
  else if c = '$' then some (some (RTok.elem RElem.dollar, rest))
  else if c = '*' then
    if rest.head? = some '?' then some (some (RTok.quant 0 none true, rest.tail))
    else some (some (RTok.quant 0 none false, rest))
  else if c = '+' then
    if rest.head? = some '?' then some (some (RTok.quant 1 none true, rest.tail))
    else some (some (RTok.quant 1 none false, rest))
  else if c = '?' then
    if rest.head? = some '?' then some (some (RTok.quant 0 (some 1) true, rest.tail))
    else some (some (RTok.quant 0 (some 1) false, rest))
  else if c = '\x7b' then braceTok rest
  else if c ∈ spChars then none
  else some (some (RTok.elem (RElem.lit c), rest))

/-- One scanner step; `some none` signals the end of the pattern text. -/
def tokenStep : List Char → Option (Option (RTok × List Char))
  | [] => some none
  | c :: rest => tokenStepCons c rest

/-- Fueled scanner loop (each step strictly shrinks the text, so any fuel of at
least the text's length computes the token list). -/
def tokenizeAux : Nat → List Char → Option (List RTok)
  | 0, s =>
    match s with
    | [] => some []
    | _ :: _ => none
  | fuel + 1, s =>
    match tokenStep s with
    | none => none
    | some none => some []
    | some (some (tok, rest)) => (tokenizeAux fuel rest).map (tok :: ·)

/-- Scan a pattern text into tokens. -/
def tokenize (s : List Char) : Option (List RTok) :=
  tokenizeAux s.length s

/-- Assemble the token stream into a top-level alternation (a list of
alternatives, each a list of elements).  `acc` holds the completed alternatives
reversed, `cur` the current alternative's elements reversed.  A quantifier
token attaches to the immediately preceding element; `none` reproduces
CPython's `re.error` cases: "nothing to repeat" (no preceding element in the
alternative), "multiple repeat" / "nothing to repeat" (preceding element not a
single-character atom), and "min repeat greater than max repeat". -/
def assembleAux : List (List RElem) → List RElem → List RTok → Option (List (List RElem))
  | acc, cur, [] => some ((cur.reverse :: acc).reverse)
  | acc, cur, RTok.elem e :: ts => assembleAux acc (e :: cur) ts
  | acc, cur, RTok.altSep :: ts => assembleAux (cur.reverse :: acc) [] ts
  | acc, cur, RTok.quant m n lz :: ts =>
    match cur with
    | [] => none
    | p :: cur' =>
      if repeatable p then
        match n with
        | some nv =>
          if nv < m then none
          else assembleAux acc (RElem.repeatR p m (some nv) lz :: cur') ts
        | none => assembleAux acc (RElem.repeatR p m none lz :: cur') ts
      else none

/-- The model of `re.compile` on the pattern texts the source constructs:
scan into tokens, then assemble quantifiers and alternation.  `none` models
`re.error`.  On every pattern built from a backslash-free span this agrees with
CPython (all of `^`, `$`, `|`, `\x7b`, `\x7d` pass through `clean_wildcard`
unescaped and are given their CPython meaning: anchors, alternation, literal or
quantifier braces); the conservative `none` cases are confined to exotic
backslash escapes, see `tokenStepCons`. -/
def parseRegex (s : List Char) : Option (List (List RElem)) :=
  (tokenize s).bind (assembleAux [] [])

/-- Try the continuation `f` on each candidate consumption count in `ks` in
order, returning the first success: the backtracking order of a
single-character-atom quantifier. -/
def tryKs {α : Type} (f : Nat → Option α) : List Nat → Option α
  | [] => none
  | k :: ks =>
    match f k with
    | some r => some r
    | none => tryKs f ks

/-- Candidate consumption counts of a quantifier over atom `base` at the head
of `s`: every `k` between `m` and the bounded run length, ordered
shortest-first when lazy and longest-first when greedy — CPython's backtracking
order for a quantified single-character atom. -/
def repKs (base : RElem) (m : Nat) (n : Option Nat) (lazyQ : Bool) (s : List Char) : List Nat :=
  let run := (s.takeWhile (elemPred base)).length
  let hi :=
    match n with
    | some nv => min nv run
    | none => run
  if lazyQ then (List.range (hi + 1 - m)).map (· + m)
  else ((List.range (hi + 1 - m)).reverse).map (· + m)

/-- Backtracking matcher for one alternative anchored at the head of `s`;
returns the suffix left over after the preferred match.  The flag `first` is
true exactly when the match attempt is anchored at position 0 of the searched
string and nothing has been consumed yet: it is what `^` consults (there is no
`re.MULTILINE` here), and zero-width steps preserve it.  `$` matches at the end
of the string or before a trailing final newline.  (Defined through `List.rec`
so that it is kernel-reducible for concrete inputs.) -/
def mexec : List RElem → Bool → List Char → Option (List Char) :=
  fun elems =>
    List.rec (motive := fun _ => Bool → List Char → Option (List Char))
      (fun _ s => some s)
      (fun e _ ih first s =>
        match e with
        | RElem.lit c =>
          match s with
          | [] => none
          | d :: s' => if d = c then ih false s' else none
        | RElem.digitChar =>
          match s with
          | [] => none
          | d :: s' => if d.isDigit then ih false s' else none
        | RElem.wsChar =>
          match s with
          | [] => none
          | d :: s' => if pySpace d then ih false s' else none
        | RElem.nwsChar =>
          match s with
          | [] => none
          | d :: s' => if pySpace d then none else ih false s'
        | RElem.caret => if first then ih first s else none
        | RElem.dollar => if s = [] ∨ s = ['\n'] then ih first s else none
        | RElem.repeatR base m n lz =>
          tryKs (fun k => ih (first && k == 0) (s.drop k)) (repKs base m n lz s))
      elems

/-- Try the alternatives of a top-level alternation in order at one position:
CPython prefers the leftmost alternative that matches at the position. -/
def tryAlts : List (List RElem) → Bool → List Char → Option (List Char)
  | [], _, _ => none
  | alt :: alts, first, s =>
    match mexec alt first s with
    | some r => some r
    | none => tryAlts alts first s

/-- `re.search` body: try the pattern at the current position (the flag records
whether that position is position 0 of the searched string) and at each later
position, returning the matched substring of the first (leftmost) position
that matches; a leftmost position beats a preferred alternative.  (Defined
through `List.rec` so that it is kernel-reducible for concrete inputs.) -/
def reSearchFrom (pat : List (List RElem)) : List Char → Bool → Option (List Char) :=
  fun s =>
    List.rec (motive := fun _ => Bool → Option (List Char))
      (fun b =>
        match tryAlts pat b [] with
        | some _ => some []
        | none => none)
      (fun c s' ih b =>
        match tryAlts pat b (c :: s') with
        | some rest => some ((c :: s').take ((c :: s').length - rest.length))
        | none => ih false)
      s

/-- `re.search` over the whole string. -/
def reSearch (pat : List (List RElem)) (s : List Char) : Option (List Char) :=
  reSearchFrom pat s true


/-- The per-character token-index array built by the loop in `match_sublist`
(`for c in token: decoded_offset_mapping.append(i)`), starting at token index `i`. -/
def buildDomAux (i : Nat) : List (List Char) → List Nat
  | [] => []
  | t :: ts => List.replicate t.length i ++ buildDomAux (i + 1) ts

/-- `match_sublist(the_list, to_match, id2token)`: decode the token ids (stripping
the word-boundary marker `▁`), find `to_match` in the decoded text, and map the
match's first and last character positions back to token indices.  `.ok none`
models Python's `return None`; `.error ()` models the `IndexError` raised by
`decoded_offset_mapping[-1]` when `to_match` is empty and the decoded text is
empty. -/
def match_sublist (the_list : List Nat) (to_match : List Char) (id2token : Nat → List Char) :
    Except Unit (Option (Nat × Nat)) :=
  let tokens := the_list.map (fun tid => (id2token tid).filter (fun c => c ≠ '▁'))
  let decoded := tokens.flatten
  let dom := buildDomAux 0 tokens
  match findSubIdx decoded to_match with
  | none => Except.ok none
  | some index =>
    match pyIdx dom (index : Int), pyIdx dom ((index : Int) + to_match.length - 1) with
    | some a, some b => Except.ok (some (a, b))
    | _, _ => Except.error ()

/-- `fix_unk_from_text_without_tokenizer`.  `.error ()` models an uncaught Python
exception: `ValueError` from `span.split('')` when `unk` is empty, and `re.error`
when a constructed pattern fails to compile (the forward pattern of line 115 is
compiled before the reversed one of line 118, although its match result is never
used). -/
def fix_unk_from_text_without_tokenizer (span text unk : List Char) :
    Except Unit (List Char) :=
  if containsSub span unk = false then Except.ok span
  else if unk = [] then Except.error ()
  else
    match parseRegex (forwardPatternStr span unk) with
    | none => Except.error ()
    | some _ =>
      match parseRegex (reversePatternStr span unk) with
      | none => Except.error ()
      | some rpat =>
        match reSearch rpat text.reverse with
        | none => Except.ok span
        | some m => Except.ok (pyStrip m.reverse)

/-- The tokenizer capability consumed by `fix_unk_from_text_with_tokenizer`: the
reverse vocabulary `id2token` (the source's `{v: k for k, v in tokenizer.vocab.items()}`)
and `encode`, returning `input_ids` with their per-token `offset_mapping`
character ranges (the source's `tokenizer(text, ..., return_offsets_mapping=True)`). -/
structure Tokenizer : Type where
  id2token : Nat → List Char
  encode : List Char → List Nat × List (Nat × Nat)

/-- `fix_unk_from_text_with_tokenizer`: locate the raw span in the decoded token
text, slice the text by the matched tokens' character offsets, and refine the
slice with the greedy wildcard pattern; fall back to the tokenizer-free function
when the sublist search returns `None`.  `.error ()` models an uncaught Python
exception (`IndexError` on the offset mapping, `ValueError` from `span.split('')`,
or `re.error` from pattern compilation). -/
def fix_unk_from_text_with_tokenizer (span text unk : List Char) (tok : Tokenizer) :
    Except Unit (List Char) :=
  match match_sublist (tok.encode text).1 span tok.id2token with
  | Except.error _ => Except.error ()
  | Except.ok none => fix_unk_from_text_without_tokenizer span text unk
  | Except.ok (some m) =>
    match pyIdx (tok.encode text).2 (m.1 : Int), pyIdx (tok.encode text).2 (m.2 : Int) with
    | some off1, some off2 =>
      let fixedSpan := pySlice off1.1 off2.2 text
      if unk = [] then Except.error ()
      else
        match parseRegex (forwardPatternStr span unk) with
        | none => Except.error ()
        | some pat =>
          match reSearch pat fixedSpan with
          | none => Except.ok span
          | some g => Except.ok (pyStrip g)
    | _, _ => Except.error ()

/-- `fix_unk_from_text`: dispatch on whether a tokenizer capability is supplied. -/
def fix_unk_from_text (span text unk : List Char) : Option Tokenizer → Except Unit (List Char)
  | some tok => fix_unk_from_text_with_tokenizer span text unk tok
  | none => fix_unk_from_text_without_tokenizer span text unk

/-! ### Pattern structure -/

/-- Elements of the greedy connector `\s*\S+\s*`. -/
def connGreedyE : List RElem :=
  [RElem.repeatR RElem.wsChar 0 none false,
   RElem.repeatR RElem.nwsChar 1 none false,
   RElem.repeatR RElem.wsChar 0 none false]

/-- Elements of the lazy connector `\s*\S+?\s*`. -/
def connLazyE : List RElem :=
  [RElem.repeatR RElem.wsChar 0 none false,
   RElem.repeatR RElem.nwsChar 1 none true,
   RElem.repeatR RElem.wsChar 0 none false]

/-- Token stream of the greedy connector `\s*\S+\s*`. -/
def fwdConnToks : List RTok :=
  [RTok.elem RElem.wsChar, RTok.quant 0 none false,
   RTok.elem RElem.nwsChar, RTok.quant 1 none false,
   RTok.elem RElem.wsChar, RTok.quant 0 none false]

/-- Token stream of the lazy connector `\s*\S+?\s*`. -/
def revConnToks : List RTok :=
  [RTok.elem RElem.wsChar, RTok.quant 0 none false,
   RTok.elem RElem.nwsChar, RTok.quant 1 none true,
   RTok.elem RElem.wsChar, RTok.quant 0 none false]

/-- The token produced by the scanner for a single unescaped character that is
not one of `sp = ".*?()[]+"`, not a backslash, and not an opening brace. -/
def tokOfChar (c : Char) : RTok :=
  if c = '|' then RTok.altSep
  else if c = '^' then RTok.elem RElem.caret
  else if c = '$' then RTok.elem RElem.dollar
  else RTok.elem (RElem.lit c)

/-- The token stream of a `clean_wildcard`-escaped fragment (each character
yields one token: escaped characters a literal, the rest via `tokOfChar`). -/
def tokensOf (f : List Char) : List RTok := f.map tokOfChar

/-- A text that does not begin with `?`: appending such a text after a
connector cannot turn the connector's final greedy `*` lazy. -/
def headOk (l : List Char) : Prop := ∀ c, l.head? = some c → c ≠ '?'

/-- Interleave fragments with the gap texts consumed by the connectors. -/
def interleave : List (List Char) → List (List Char) → List Char :=
  fun fs =>
    List.rec (motive := fun _ => List (List Char) → List Char)
      (fun _ => [])
      (fun f fs' ih gs =>
        match fs', gs with
        | [], _ => f
        | _ :: _, [] => []
        | _ :: _, g :: gs' => f ++ g ++ ih gs')
      fs

/-- A tokenizer capability whose single token decodes to `" ab"` and covers
`text[0:3]`: it makes the tokenizer-assisted sublist search succeed on a
placeholder-free span with leading whitespace. -/
def c2tok : Tokenizer :=
  { id2token := fun _ => " ab".toList, encode := fun _ => ([0], [(0, 3)]) }

/-- A tokenizer capability whose decoded token text is `"z"`, so the sublist
search fails for any span not contained in it. -/
def c7tok : Tokenizer :=
  { id2token := fun _ => "z".toList, encode := fun _ => ([0], [(0, 1)]) }

/-! ### Helper lemmas: the matcher -/

@[simp]
theorem mexec_repeatR (base : RElem) (m : Nat) (n : Option Nat) (lz : Bool)
    (ps : List RElem) (b : Bool) (s : List Char) :
    mexec (RElem.repeatR base m n lz :: ps) b s =
      tryKs (fun k => mexec ps (b && k == 0) (s.drop k)) (repKs base m n lz s) := rfl

theorem tryKs_none {α : Type} {f : Nat → Option α} {ks : List Nat}
    (h : ∀ k ∈ ks, f k = none) : tryKs f ks = none := by
  induction ks with
  | nil => rfl
  | cons k ks ih =>
    rw [tryKs, h k (List.mem_cons_self _ _)]
    exact ih (fun k' hk' => h k' (List.mem_cons_of_mem _ hk'))

theorem tryKs_cons_some {α : Type} {f : Nat → Option α} {k : Nat} {ks : List Nat} {r : α}
    (h : f k = some r) : tryKs f (k :: ks) = some r := by
  rw [tryKs, h]

theorem tryAlts_single (alt : List RElem) (b : Bool) (s : List Char) :
    tryAlts [alt] b s = mexec alt b s := by
  rcases h : mexec alt b s with _ | r <;> simp [tryAlts, h]

theorem reSearchFrom_eq (pat : List (List RElem)) (s : List Char) (b : Bool) :
    reSearchFrom pat s b =
      (match tryAlts pat b s with
       | some rest => some (s.take (s.length - rest.length))
       | none =>
         match s with
         | [] => none
         | _ :: s' => reSearchFrom pat s' false) := by
  cases s with
  | nil =>
    show (match tryAlts pat b [] with
          | some _ => some [] | none => none) =
         (match tryAlts pat b [] with
          | some rest => some (List.take (0 - rest.length) []) | none => none)
    cases tryAlts pat b [] with
    | none => rfl
    | some rest => simp
  | cons c s' => rfl

/-! ### Decomposition of successful matches and searches -/

/-- C2 (amended) — Identity on placeholder-free input, tokenizer-free path:
when the placeholder does not occur in the span, `fix_unk_from_text` without a
tokenizer returns the span unchanged.  (The tokenizer-assisted path has no such
short-circuit; see the counterexample.) -/
theorem c2_placeholder_free_identity (span text unk : List Char)
    (h : containsSub span unk = false) :
    fix_unk_from_text span text unk none = Except.ok span := by
  rw [fix_unk_from_text]
  unfold fix_unk_from_text_without_tokenizer
  rw [if_pos h]

/-- Witness for C2 at a concrete input. -/
theorem c2_witness :
    fix_unk_from_text "abc".toList "xyz".toList "<unk>".toList none =
      Except.ok "abc".toList :=
  c2_placeholder_free_identity "abc".toList "xyz".toList "<unk>".toList (by decide)

/-- Counterexample to C2 as stated: with a tokenizer capability supplied, the
tokenizer-assisted path does not short-circuit on a placeholder-free span; for
span `" ab"` it returns the stripped match `"ab"`, not the span. -/
theorem c2_counterexample :
    containsSub " ab".toList "<unk>".toList = false ∧
    fix_unk_from_text " ab".toList " ab".toList "<unk>".toList (some c2tok) =
      Except.ok "ab".toList ∧
    ("ab".toList : List Char) ≠ " ab".toList :=
  ⟨by decide, by rfl, by decide⟩

/-- C3 — Concrete scenario conformance of the tokenizer-free path on the three
listed (span, text) pairs with the default placeholder. -/
theorem c3_concrete_scenarios :
    fix_unk_from_text "<unk> colo e Bengo".toList
        ("At 159 meters above sea level , Angola International Airport is " ++
         "located at Ícolo e Bengo , part of Luanda Province , in Angola .").toList
        "<unk>".toList none = Except.ok "Ícolo e Bengo".toList ∧
    fix_unk_from_text "Tarō As<unk>".toList "The leader of Japan is Tarō Asō .".toList
        "<unk>".toList none = Except.ok "Tarō Asō".toList ∧
    fix_unk_from_text "<unk>Tar As<unk>".toList "The leader of Japan is ōTar Asō .".toList
        "<unk>".toList none = Except.ok "ōTar Asō".toList :=
  ⟨by rfl, by rfl, by rfl⟩

/-- C7 — Tokenizer-assisted fallback equality: when the token sublist search
(invoked with the raw span) returns no match, the tokenizer-assisted path
returns exactly the tokenizer-free result. -/
theorem c7_tokenizer_fallback (span text unk : List Char) (tok : Tokenizer)
    (h : match_sublist (tok.encode text).1 span tok.id2token = Except.ok none) :
    fix_unk_from_text_with_tokenizer span text unk tok =
      fix_unk_from_text_without_tokenizer span text unk := by
  unfold fix_unk_from_text_with_tokenizer
  rw [h]

/-- Witness for C7 at a concrete input. -/
theorem c7_witness :
    fix_unk_from_text_with_tokenizer "a<unk>b".toList "a x b".toList "<unk>".toList c7tok =
      fix_unk_from_text_without_tokenizer "a<unk>b".toList "a x b".toList "<unk>".toList :=
  c7_tokenizer_fallback "a<unk>b".toList "a x b".toList "<unk>".toList c7tok (by rfl)

/-- The decoded-offset array has one entry per decoded character. -/
theorem buildDomAux_length : ∀ (ts : List (List Char)) (i : Nat),
    (buildDomAux i ts).length = ts.flatten.length := by
  intro ts
  induction ts with
  | nil => intro i; rfl
  | cons t ts ih =>
    intro i
    simp [buildDomAux, ih]

/-- C10 — Empty search target in `match_sublist`: when the decoded marker-stripped
token text is nonempty, the empty target is found at position 0 and index
`0 + 0 - 1 = -1` wraps to the last entry of the offset array, so the result is
the full decoded range `[first token index, last token index]`. -/
theorem c10_empty_target_full_range (lst : List Nat) (id2token : Nat → List Char)
    (h : (lst.map (fun tid => (id2token tid).filter (fun c => c ≠ '▁'))).flatten ≠ []) :
    ∃ i j,
      (buildDomAux 0 (lst.map (fun tid => (id2token tid).filter (fun c => c ≠ '▁')))).head? =
        some i ∧
      (buildDomAux 0 (lst.map (fun tid => (id2token tid).filter (fun c => c ≠ '▁')))).getLast? =
        some j ∧
      match_sublist lst [] id2token = Except.ok (some (i, j)) := by
  have hlen := buildDomAux_length (lst.map (fun tid => (id2token tid).filter (fun c => c ≠ '▁'))) 0
  set tokens := lst.map (fun tid => (id2token tid).filter (fun c => c ≠ '▁')) with htokens
  set dom := buildDomAux 0 tokens with hdomdef
  have hdomne : dom ≠ [] := by
    intro hnil
    apply h
    have h0 : tokens.flatten.length = 0 := by rw [← hlen, hnil]; rfl
    exact List.length_eq_zero.mp h0
  rcases List.exists_cons_of_ne_nil hdomne with ⟨d, ds, hd⟩
  refine ⟨d, dom.getLast hdomne, ?_, List.getLast?_eq_getLast_of_ne_nil hdomne, ?_⟩
  · rw [hd]; rfl
  · have hfind : findSubIdx tokens.flatten [] = some 0 := by
      cases tokens.flatten with
      | nil => rfl
      | cons x xs => rfl
    have hi0 : pyIdx dom (((0 : Nat) : Int)) = some d := by
      rw [hd]; rfl
    have hidx : (((0 : Nat) : Int) + ((List.length ([] : List Char) : Nat) : Int) - 1) = -1 := by
      norm_num
    have hi1 : pyIdx dom (((0 : Nat) : Int) + ((List.length ([] : List Char) : Nat) : Int) - 1) =
        some (dom.getLast hdomne) := by
      rw [hidx]
      unfold pyIdx
      rw [if_neg (by norm_num), if_pos (by rw [hd]; simp)]
      rw [List.get?_eq_getElem?]
      have := List.getLast?_eq_getElem? dom
      rw [List.getLast?_eq_getLast_of_ne_nil hdomne] at this
      simpa using this.symm
    unfold match_sublist
    simp only [← htokens, hfind, ← hdomdef, hi0, hi1]

/-- Witness for C10 at a concrete input. -/
theorem c10_witness :
    ∃ i j,
      (buildDomAux 0 ([0, 1].map (fun tid =>
        (((fun _ => "a".toList) : Nat → List Char) tid).filter (fun c => c ≠ '▁')))).head? =
        some i ∧
      (buildDomAux 0 ([0, 1].map (fun tid =>
        (((fun _ => "a".toList) : Nat → List Char) tid).filter (fun c => c ≠ '▁')))).getLast? =
        some j ∧
      match_sublist [0, 1] [] (fun _ => "a".toList) = Except.ok (some (i, j)) :=
  c10_empty_target_full_range [0, 1] (fun _ => "a".toList) (by decide)

/-! ### Helper lemmas: the scanner consumes text -/

theorem head_some_pos {l : List Char} {c : Char} (h : l.head? = some c) : 0 < l.length := by
  cases l with
  | nil => cases h
  | cons x xs => simp

theorem scanQuant_shrink {rest : List Char} {m : Nat} {n : Option Nat} {r : List Char}
    (h : scanQuant rest = some (m, n, r)) : r.length < rest.length := by
  simp only [scanQuant] at h
  set r1 := rest.drop (rest.takeWhile Char.isDigit).length with hr1
  have hl1 : r1.length ≤ rest.length := by
    rw [hr1]
    simp only [List.length_drop]
    omega
  by_cases h1 : r1.head? = some '\x7d'
  · rw [if_pos h1] at h
    by_cases h2 : (rest.takeWhile Char.isDigit).isEmpty
    · rw [if_pos h2] at h
      cases h
    · rw [if_neg h2] at h
      cases h
      have hp := head_some_pos h1
      simp only [List.length_tail]
      omega
  · rw [if_neg h1] at h
    by_cases h3 : r1.head? = some ','
    · rw [if_pos h3] at h
      set r3 := r1.tail.drop (r1.tail.takeWhile Char.isDigit).length with hr3
      have hl3 : r3.length ≤ r1.tail.length := by
        rw [hr3]
        simp only [List.length_drop]
        omega
      by_cases h4 : r3.head? = some '\x7d'
      · rw [if_pos h4] at h
        cases h
        have hp1 := head_some_pos h3
        have hp2 := head_some_pos h4
        simp only [List.length_tail] at hl3 ⊢
        omega
      · rw [if_neg h4] at h
        cases h
    · rw [if_neg h3] at h
      cases h

theorem escTok_shrink {c2 : Char} {rest' : List Char} {tok : RTok} {rest : List Char}
    (h : escTok c2 rest' = some (some (tok, rest))) : rest.length ≤ rest'.length := by
  unfold escTok at h
  by_cases e1 : c2 = 's'
  · rw [if_pos e1] at h
    cases h
    exact le_refl _
  · rw [if_neg e1] at h
    by_cases e2 : c2 = 'S'
    · rw [if_pos e2] at h
      cases h
      exact le_refl _
    · rw [if_neg e2] at h
      by_cases e3 : c2 = 'd'
      · rw [if_pos e3] at h
        cases h
        exact le_refl _
      · rw [if_neg e3] at h
        by_cases e4 : c2 = 'a'
        · rw [if_pos e4] at h
          cases h
          exact le_refl _
        · rw [if_neg e4] at h
          by_cases e5 : c2 = 'n'
          · rw [if_pos e5] at h
            cases h
            exact le_refl _
          · rw [if_neg e5] at h
            by_cases e6 : c2 = 't'
            · rw [if_pos e6] at h
              cases h
              exact le_refl _
            · rw [if_neg e6] at h
              by_cases e7 : c2 = 'r'
              · rw [if_pos e7] at h
                cases h
                exact le_refl _
              · rw [if_neg e7] at h
                by_cases e8 : c2 = 'f'
                · rw [if_pos e8] at h
                  cases h
                  exact le_refl _
                · rw [if_neg e8] at h
                  by_cases e9 : c2 = 'v'
                  · rw [if_pos e9] at h
                    cases h
                    exact le_refl _
                  · rw [if_neg e9] at h
                    by_cases e10 : c2 = '0'
                    · rw [if_pos e10] at h
                      cases h
                      simp only [List.length_drop]
                      omega
                    · rw [if_neg e10] at h
                      by_cases e11 : c2.isAlphanum = true
                      · rw [if_pos e11] at h
                        cases h
                      · rw [if_neg e11] at h
                        cases h
                        exact le_refl _

theorem braceTok_shrink {t : List Char} {tok : RTok} {rest : List Char}
    (h : braceTok t = some (some (tok, rest))) : rest.length ≤ t.length := by
  unfold braceTok at h
  rcases hsc : scanQuant t with _ | ⟨m', n', r2⟩ <;> rw [hsc] at h
  · replace h : some (some (RTok.elem (RElem.lit '\x7b'), t)) = some (some (tok, rest)) := h
    cases h
    exact le_refl _
  · have hlt := scanQuant_shrink hsc
    replace h :
        (if r2.head? = some '?' then some (some (RTok.quant m' n' true, r2.tail))
         else some (some (RTok.quant m' n' false, r2))) = some (some (tok, rest)) := h
    split_ifs at h <;> cases h
    · simp only [List.length_tail]
      omega
    · omega

set_option linter.unreachableTactic false in
set_option linter.unusedTactic false in
theorem tokenStepCons_shrink {c : Char} {t : List Char} {tok : RTok} {rest : List Char}
    (h : tokenStepCons c t = some (some (tok, rest))) : rest.length ≤ t.length := by
  unfold tokenStepCons at h
  by_cases hb : c = '\\'
  · rw [if_pos hb] at h
    cases t with
    | nil => cases h
    | cons c2 rest' =>
      replace h : escTok c2 rest' = some (some (tok, rest)) := h
      have := escTok_shrink h
      simp only [List.length_cons]
      omega
  · rw [if_neg hb] at h
    split_ifs at h
    all_goals first
      | exact braceTok_shrink h
      | (cases h; simp only [List.length_tail]; omega)
      | (cases h; omega)
      | cases h

theorem tokenStep_shrink {s : List Char} {tok : RTok} {rest : List Char}
    (h : tokenStep s = some (some (tok, rest))) : rest.length < s.length := by
  cases s with
  | nil => cases h
  | cons c t =>
    have := tokenStepCons_shrink (show tokenStepCons c t = some (some (tok, rest)) from h)
    simp only [List.length_cons]
    omega

theorem tokenizeAux_nil : ∀ fuel : Nat, tokenizeAux fuel [] = some [] := by
  intro fuel
  cases fuel <;> rfl

theorem tokenizeAux_succ (fuel : Nat) (s : List Char) :
    tokenizeAux (fuel + 1) s =
      (match tokenStep s with
       | none => none
       | some none => some []
       | some (some (tok, rest)) => (tokenizeAux fuel rest).map (tok :: ·)) := rfl

theorem tokenizeAux_irrel : ∀ (fuel : Nat) (s : List Char), s.length ≤ fuel →
    tokenizeAux fuel s = tokenizeAux s.length s := by
  intro fuel
  induction fuel using Nat.strong_induction_on with
  | _ fuel ih =>
    intro s hs
    cases s with
    | nil => rw [tokenizeAux_nil, tokenizeAux_nil]
    | cons c t =>
      cases fuel with
      | zero => simp at hs
      | succ f =>
        show tokenizeAux (f + 1) (c :: t) = tokenizeAux (t.length + 1) (c :: t)
        rw [tokenizeAux_succ, tokenizeAux_succ]
        rcases hstep : tokenStep (c :: t) with _ | _ | ⟨tok, rest⟩
        · rfl
        · rfl
        · have hlt := tokenStep_shrink hstep
          simp only [List.length_cons] at hlt hs
          show (tokenizeAux f rest).map (tok :: ·) = (tokenizeAux t.length rest).map (tok :: ·)
          rw [ih f (by omega) rest (by omega), ih t.length (by omega) rest (by omega)]

theorem tokenize_cons_step {s : List Char} {tok : RTok} {rest : List Char}
    (h : tokenStep s = some (some (tok, rest))) :
    tokenize s = (tokenize rest).map (tok :: ·) := by
  cases s with
  | nil => cases h
  | cons c t =>
    show tokenizeAux (t.length + 1) (c :: t) = _
    rw [tokenizeAux_succ, h]
    have hlt := tokenStep_shrink h
    simp only [List.length_cons] at hlt
    show (tokenizeAux t.length rest).map (tok :: ·) = (tokenize rest).map (tok :: ·)
    rw [tokenizeAux_irrel t.length rest (by omega)]
    rfl

/-! ### The scanner and assembler on constructed pattern text -/

theorem tokenStep_escaped {c : Char} (hc : c ∈ spChars) (tail : List Char) :
    tokenStep ('\\' :: c :: tail) = some (some (RTok.elem (RElem.lit c), tail)) := by
  fin_cases hc <;> rfl

theorem tokOfChar_sp {c : Char} (hc : c ∈ spChars) :
    tokOfChar c = RTok.elem (RElem.lit c) := by
  fin_cases hc <;> rfl

theorem tokenStep_unescaped {c : Char} (hc : c ∉ spChars) (hb : c ≠ '\\') (hlb : c ≠ '\x7b')
    (tail : List Char) : tokenStep (c :: tail) = some (some (tokOfChar c, tail)) := by
  have h1 : c ≠ '*' := fun hx => hc (by rw [hx]; decide)
  have h2 : c ≠ '+' := fun hx => hc (by rw [hx]; decide)
  have h3 : c ≠ '?' := fun hx => hc (by rw [hx]; decide)
  show tokenStepCons c tail = _
  unfold tokenStepCons tokOfChar
  rw [if_neg hb]
  by_cases hp : c = '|'
  · rw [if_pos hp, if_pos hp]
  · rw [if_neg hp, if_neg hp]
    by_cases hcar : c = '^'
    · rw [if_pos hcar, if_pos hcar]
    · rw [if_neg hcar, if_neg hcar]
      by_cases hd : c = '$'
      · rw [if_pos hd, if_pos hd]
      · rw [if_neg hd, if_neg hd, if_neg h1, if_neg h2, if_neg h3, if_neg hlb, if_neg hc]

theorem headOk_append {a b : List Char} (ha : headOk a) (hb2 : headOk b) : headOk (a ++ b) := by
  cases a with
  | nil => simpa using hb2
  | cons x xs =>
    intro c hc
    have hx : c = x := by simpa using hc.symm
    rw [hx]
    exact ha x rfl

theorem headOk_clean (f : List Char) : headOk (clean_wildcard f) := by
  cases f with
  | nil => intro c hc; cases hc
  | cons x xs =>
    intro c hc
    by_cases hx : x ∈ spChars
    · have hcw : clean_wildcard (x :: xs) = '\\' :: (x :: clean_wildcard xs) := by
        simp [clean_wildcard, hx]
      rw [hcw] at hc
      simp only [List.head?_cons] at hc
      cases hc
      decide
    · have hcw : clean_wildcard (x :: xs) = x :: clean_wildcard xs := by
        simp [clean_wildcard, hx]
      rw [hcw] at hc
      simp only [List.head?_cons] at hc
      cases hc
      exact fun hq => hx (by rw [hq]; decide)

theorem headOk_joinSep (connStr : List Char) (hc : headOk connStr) :
    ∀ fs : List (List Char), headOk (joinSep connStr (fs.map clean_wildcard)) := by
  intro fs
  induction fs with
  | nil => intro c hcc; cases hcc
  | cons f fs' ih =>
    cases fs' with
    | nil =>
      show headOk (joinSep connStr [clean_wildcard f])
      simpa [joinSep] using headOk_clean f
    | cons f2 fs'' =>
      have hj : joinSep connStr ((f :: f2 :: fs'').map clean_wildcard) =
          clean_wildcard f ++ (connStr ++ joinSep connStr ((f2 :: fs'').map clean_wildcard)) := by
        simp [joinSep, List.append_assoc]
      rw [hj]
      exact headOk_append (headOk_clean f) (headOk_append hc ih)

theorem headOk_fwdConnStr : headOk fwdConnStr := by
  intro c hc
  cases hc
  decide

theorem headOk_revConnStr : headOk revConnStr := by
  intro c hc
  cases hc
  decide

theorem tokenize_clean : ∀ f : List Char, (∀ c ∈ f, c ≠ '\\' ∧ c ≠ '\x7b') →
    ∀ rest : List Char,
    tokenize (clean_wildcard f ++ rest) = (tokenize rest).map (fun ts => tokensOf f ++ ts) := by
  intro f
  induction f with
  | nil =>
    intro _ rest
    show tokenize rest = (tokenize rest).map (fun ts => [] ++ ts)
    rcases h : tokenize rest with _ | ts <;> simp
  | cons c f' ih =>
    intro hb rest
    have hc' : ∀ x ∈ f', x ≠ '\\' ∧ x ≠ '\x7b' := fun x hx => hb x (List.mem_cons_of_mem _ hx)
    rcases hb c (List.mem_cons_self _ _) with ⟨hcb, hclb⟩
    by_cases hcs : c ∈ spChars
    · have hcw : clean_wildcard (c :: f') ++ rest =
          '\\' :: c :: (clean_wildcard f' ++ rest) := by
        simp [clean_wildcard, hcs]
      rw [hcw, tokenize_cons_step (tokenStep_escaped hcs _), ih hc' rest]
      have htok : tokensOf (c :: f') = RTok.elem (RElem.lit c) :: tokensOf f' := by
        simp [tokensOf, tokOfChar_sp hcs]
      rw [htok]
      rcases h : tokenize rest with _ | ts <;> simp
    · have hcw : clean_wildcard (c :: f') ++ rest = c :: (clean_wildcard f' ++ rest) := by
        simp [clean_wildcard, hcs]
      rw [hcw, tokenize_cons_step (tokenStep_unescaped hcs hcb hclb _), ih hc' rest]
      have htok : tokensOf (c :: f') = tokOfChar c :: tokensOf f' := by
        simp [tokensOf]
      rw [htok]
      rcases h : tokenize rest with _ | ts <;> simp

theorem tokenStep_star_greedy (rest : List Char) (hq : headOk rest) :
    tokenStep ('*' :: rest) = some (some (RTok.quant 0 none false, rest)) := by
  have hq' : ¬(rest.head? = some '?') := fun hx => hq '?' hx rfl
  show tokenStepCons '*' rest = _
  unfold tokenStepCons
  rw [if_neg (by decide), if_neg (by decide), if_neg (by decide), if_neg (by decide),
    if_pos rfl, if_neg hq']

theorem tokenize_fwdConn (rest : List Char) (hq : headOk rest) :
    tokenize (fwdConnStr ++ rest) = (tokenize rest).map (fun ts => fwdConnToks ++ ts) := by
  show tokenize ('\\' :: 's' :: '*' :: '\\' :: 'S' :: '+' :: '\\' :: 's' :: '*' :: rest) = _
  have h1 : tokenStep ('\\' :: 's' :: '*' :: '\\' :: 'S' :: '+' :: '\\' :: 's' :: '*' :: rest) =
      some (some (RTok.elem RElem.wsChar,
        '*' :: '\\' :: 'S' :: '+' :: '\\' :: 's' :: '*' :: rest)) := rfl
  have h2 : tokenStep ('*' :: '\\' :: 'S' :: '+' :: '\\' :: 's' :: '*' :: rest) =
      some (some (RTok.quant 0 none false, '\\' :: 'S' :: '+' :: '\\' :: 's' :: '*' :: rest)) := rfl
  have h3 : tokenStep ('\\' :: 'S' :: '+' :: '\\' :: 's' :: '*' :: rest) =
      some (some (RTok.elem RElem.nwsChar, '+' :: '\\' :: 's' :: '*' :: rest)) := rfl
  have h4 : tokenStep ('+' :: '\\' :: 's' :: '*' :: rest) =
      some (some (RTok.quant 1 none false, '\\' :: 's' :: '*' :: rest)) := rfl
  have h5 : tokenStep ('\\' :: 's' :: '*' :: rest) =
      some (some (RTok.elem RElem.wsChar, '*' :: rest)) := rfl
  rw [tokenize_cons_step h1, tokenize_cons_step h2, tokenize_cons_step h3,
    tokenize_cons_step h4, tokenize_cons_step h5,
    tokenize_cons_step (tokenStep_star_greedy rest hq)]
  rcases h : tokenize rest with _ | ts <;> simp [fwdConnToks]

theorem tokenize_revConn (rest : List Char) (hq : headOk rest) :
    tokenize (revConnStr ++ rest) = (tokenize rest).map (fun ts => revConnToks ++ ts) := by
  show tokenize ('\\' :: 's' :: '*' :: '\\' :: 'S' :: '+' :: '?' :: '\\' :: 's' :: '*' :: rest) = _
  have h1 : tokenStep ('\\' :: 's' :: '*' :: '\\' :: 'S' :: '+' :: '?' :: '\\' :: 's' :: '*' :: rest) =
      some (some (RTok.elem RElem.wsChar,
        '*' :: '\\' :: 'S' :: '+' :: '?' :: '\\' :: 's' :: '*' :: rest)) := rfl
  have h2 : tokenStep ('*' :: '\\' :: 'S' :: '+' :: '?' :: '\\' :: 's' :: '*' :: rest) =
      some (some (RTok.quant 0 none false,
        '\\' :: 'S' :: '+' :: '?' :: '\\' :: 's' :: '*' :: rest)) := rfl
  have h3 : tokenStep ('\\' :: 'S' :: '+' :: '?' :: '\\' :: 's' :: '*' :: rest) =
      some (some (RTok.elem RElem.nwsChar, '+' :: '?' :: '\\' :: 's' :: '*' :: rest)) := rfl
  have h4 : tokenStep ('+' :: '?' :: '\\' :: 's' :: '*' :: rest) =
      some (some (RTok.quant 1 none true, '\\' :: 's' :: '*' :: rest)) := rfl
  have h5 : tokenStep ('\\' :: 's' :: '*' :: rest) =
      some (some (RTok.elem RElem.wsChar, '*' :: rest)) := rfl
  rw [tokenize_cons_step h1, tokenize_cons_step h2, tokenize_cons_step h3,
    tokenize_cons_step h4, tokenize_cons_step h5,
    tokenize_cons_step (tokenStep_star_greedy rest hq)]
  rcases h : tokenize rest with _ | ts <;> simp [revConnToks]

theorem joinSep_map {α β : Type} (g : α → β) (sep : List α) :
    ∀ xs : List (List α), (joinSep sep xs).map g = joinSep (sep.map g) (xs.map (List.map g)) := by
  intro xs
  induction xs with
  | nil => rfl
  | cons x xs' ih =>
    cases xs' with
    | nil => rfl
    | cons y ys =>
      show (x ++ sep ++ joinSep sep (y :: ys)).map g = _
      rw [List.map_append, List.map_append, ih]
      rfl

theorem tokenize_join (connStr : List Char) (connToks : List RTok)
    (hok : headOk connStr)
    (hconn : ∀ rest : List Char, headOk rest →
      tokenize (connStr ++ rest) = (tokenize rest).map (fun ts => connToks ++ ts)) :
    ∀ fs : List (List Char), (∀ f ∈ fs, ∀ c ∈ f, c ≠ '\\' ∧ c ≠ '\x7b') →
    tokenize (joinSep connStr (fs.map clean_wildcard)) =
      some (joinSep connToks (fs.map tokensOf)) := by
  intro fs
  induction fs with
  | nil => intro _; rfl
  | cons f fs' ih =>
    intro hb
    cases fs' with
    | nil =>
      show tokenize (joinSep connStr [clean_wildcard f]) = _
      have hj : joinSep connStr [clean_wildcard f] = clean_wildcard f ++ [] := by
        simp [joinSep]
      rw [hj, tokenize_clean f (hb f (List.mem_cons_self _ _)) []]
      show some (tokensOf f ++ []) = some (joinSep connToks [tokensOf f])
      simp [joinSep]
    | cons f2 fs'' =>
      have hb1 := hb f (List.mem_cons_self _ _)
      have hb2 : ∀ g ∈ f2 :: fs'', ∀ c ∈ g, c ≠ '\\' ∧ c ≠ '\x7b' :=
        fun g hg => hb g (List.mem_cons_of_mem _ hg)
      have hj : joinSep connStr ((f :: f2 :: fs'').map clean_wildcard) =
          clean_wildcard f ++ (connStr ++ joinSep connStr ((f2 :: fs'').map clean_wildcard)) := by
        simp [joinSep, List.append_assoc]
      rw [hj, tokenize_clean f hb1 _,
        hconn _ (headOk_joinSep connStr hok (f2 :: fs'')), ih hb2]
      show some (tokensOf f ++ (connToks ++ joinSep connToks ((f2 :: fs'').map tokensOf))) =
        some (joinSep connToks ((f :: f2 :: fs'').map tokensOf))
      simp [joinSep, List.append_assoc]

theorem assemble_elem_cons (acc : List (List RElem)) (cur : List RElem) (e : RElem)
    (ts : List RTok) :
    assembleAux acc cur (RTok.elem e :: ts) = assembleAux acc (e :: cur) ts := rfl

theorem assemble_alt_cons (acc : List (List RElem)) (cur : List RElem) (ts : List RTok) :
    assembleAux acc cur (RTok.altSep :: ts) = assembleAux (cur.reverse :: acc) [] ts := rfl

theorem assemble_connG (acc : List (List RElem)) (cur : List RElem) (ts : List RTok) :
    assembleAux acc cur (fwdConnToks ++ ts) =
      assembleAux acc (connGreedyE.reverse ++ cur) ts := rfl

theorem assemble_connL (acc : List (List RElem)) (cur : List RElem) (ts : List RTok) :
    assembleAux acc cur (revConnToks ++ ts) =
      assembleAux acc (connLazyE.reverse ++ cur) ts := rfl

theorem assemble_tokensOf_ex (f : List Char) :
    ∀ ts : List RTok, (∀ acc cur, ∃ r, assembleAux acc cur ts = some r) →
    ∀ acc cur, ∃ r, assembleAux acc cur (tokensOf f ++ ts) = some r := by
  induction f with
  | nil => intro ts hts acc cur; exact hts acc cur
  | cons c f' ih =>
    intro ts hts acc cur
    show ∃ r, assembleAux acc cur (tokOfChar c :: (tokensOf f' ++ ts)) = some r
    have hcase : (∃ e, tokOfChar c = RTok.elem e) ∨ tokOfChar c = RTok.altSep := by
      unfold tokOfChar
      split_ifs <;> first | (right; rfl) | (left; exact ⟨_, rfl⟩)
    rcases hcase with ⟨e, he⟩ | he
    · rw [he, assemble_elem_cons]
      exact ih ts hts acc (e :: cur)
    · rw [he, assemble_alt_cons]
      exact ih ts hts (cur.reverse :: acc) []

theorem assemble_join_ex (connToks : List RTok) (connE : List RElem)
    (hconnA : ∀ acc cur ts, assembleAux acc cur (connToks ++ ts) =
      assembleAux acc (connE.reverse ++ cur) ts) :
    ∀ (fs : List (List Char)) (acc : List (List RElem)) (cur : List RElem),
    ∃ r, assembleAux acc cur (joinSep connToks (fs.map tokensOf)) = some r := by
  intro fs
  induction fs with
  | nil => intro acc cur; exact ⟨_, rfl⟩
  | cons f fs' ih =>
    cases fs' with
    | nil =>
      intro acc cur
      have hnil : ∀ (acc : List (List RElem)) (cur : List RElem),
          ∃ r, assembleAux acc cur ([] : List RTok) = some r :=
        fun acc cur => ⟨_, rfl⟩
      have hx := assemble_tokensOf_ex f [] hnil acc cur
      have hj : joinSep connToks ((f :: ([] : List (List Char))).map tokensOf) =
          tokensOf f ++ [] := by
        simp [joinSep]
      rw [hj]
      exact hx
    | cons f2 fs'' =>
      intro acc cur
      have hrest : ∀ (acc : List (List RElem)) (cur : List RElem), ∃ r,
          assembleAux acc cur (connToks ++ joinSep connToks ((f2 :: fs'').map tokensOf)) =
            some r := by
        intro acc cur
        rw [hconnA]
        exact ih acc (connE.reverse ++ cur)
      have hx := assemble_tokensOf_ex f _ hrest acc cur
      have hj : joinSep connToks ((f :: f2 :: fs'').map tokensOf) =
          tokensOf f ++ (connToks ++ joinSep connToks ((f2 :: fs'').map tokensOf)) := by
        simp [joinSep, List.append_assoc]
      rw [hj]
      exact hx

/-- Joined patterns over fragments free of backslashes and opening braces
always compile (to some alternation). -/
theorem parse_join_total (connStr : List Char) (connToks : List RTok) (connE : List RElem)
    (hok : headOk connStr)
    (hconn : ∀ rest, headOk rest →
      tokenize (connStr ++ rest) = (tokenize rest).map (fun ts => connToks ++ ts))
    (hconnA : ∀ acc cur ts, assembleAux acc cur (connToks ++ ts) =
      assembleAux acc (connE.reverse ++ cur) ts)
    (fs : List (List Char)) (hb : ∀ f ∈ fs, ∀ c ∈ f, c ≠ '\\' ∧ c ≠ '\x7b') :
    ∃ alts, parseRegex (joinSep connStr (fs.map clean_wildcard)) = some alts := by
  unfold parseRegex
  rw [tokenize_join connStr connToks hok hconn fs hb]
  show ∃ alts, assembleAux [] [] (joinSep connToks (fs.map tokensOf)) = some alts
  exact assemble_join_ex connToks connE hconnA fs [] []

/-! ### Helper lemmas: fragments of a split are made of span characters -/

theorem pySplitAux_subset (sep : List Char) :
    ∀ (fuel : Nat) (s p : List Char), p ∈ pySplitAux sep fuel s → ∀ c ∈ p, c ∈ s := by
  intro fuel
  induction fuel with
  | zero =>
    intro s p hp c hc
    rcases List.mem_singleton.mp hp with rfl
    exact hc
  | succ fuel ih =>
    intro s p hp c hc
    rw [pySplitAux] at hp
    rcases hfind : findSubIdx s sep with _ | i
    · rw [hfind] at hp
      rcases List.mem_singleton.mp hp with rfl
      exact hc
    · rw [hfind] at hp
      rcases List.mem_cons.mp hp with rfl | hp'
      · exact List.take_subset _ _ hc
      · exact List.drop_subset _ _ (ih _ p hp' c hc)

theorem pySplit_subset {s sep p : List Char} (hp : p ∈ pySplit s sep) :
    ∀ c ∈ p, c ∈ s :=
  pySplitAux_subset sep _ s p hp

theorem pyStrip_subset {s : List Char} : ∀ c ∈ pyStrip s, c ∈ s := by
  intro c hc
  unfold pyStrip at hc
  rw [List.mem_reverse] at hc
  have hc2 := List.dropWhile_subset pySpace hc
  rw [List.mem_reverse] at hc2
  exact List.dropWhile_subset pySpace hc2

/-- C5 (amended) — Totality for spans without backslashes or opening braces:
when no character of the span is a backslash or `\x7b` (the two characters that
can produce an uncompilable constructed pattern) and the placeholder is
nonempty, tokenizer-free recovery runs to completion and returns a string. -/
theorem c5_no_error_on_safe_spans (span text unk : List Char)
    (hs : ∀ c ∈ span, c ≠ '\\' ∧ c ≠ '\x7b') (hu : unk ≠ []) :
    ∃ r, fix_unk_from_text_without_tokenizer span text unk = Except.ok r := by
  by_cases h1 : containsSub span unk = false
  · exact ⟨span, by unfold fix_unk_from_text_without_tokenizer; rw [if_pos h1]⟩
  · have hfragsafe : ∀ f ∈ (pySplit span unk).map pyStrip, ∀ c ∈ f, c ≠ '\\' ∧ c ≠ '\x7b' := by
      intro f hf c hc
      rcases List.mem_map.mp hf with ⟨p, hp, rfl⟩
      exact hs c (pySplit_subset hp c (pyStrip_subset c hc))
    have hfragsafe2 :
        ∀ f ∈ ((pySplit span unk).map (fun it => (pyStrip it).reverse)).reverse,
          ∀ c ∈ f, c ≠ '\\' ∧ c ≠ '\x7b' := by
      intro f hf c hc
      rw [List.mem_reverse] at hf
      rcases List.mem_map.mp hf with ⟨p, hp, rfl⟩
      rw [List.mem_reverse] at hc
      exact hs c (pySplit_subset hp c (pyStrip_subset c hc))
    have hfwd : ∃ alts, parseRegex (forwardPatternStr span unk) = some alts := by
      have hj := parse_join_total fwdConnStr fwdConnToks connGreedyE headOk_fwdConnStr
        tokenize_fwdConn assemble_connG ((pySplit span unk).map pyStrip) hfragsafe
      have heq : (pySplit span unk).map (fun item => clean_wildcard (pyStrip item)) =
          ((pySplit span unk).map pyStrip).map clean_wildcard := by
        simp [List.map_map, Function.comp]
      rw [forwardPatternStr, heq]
      exact hj
    have hrev : ∃ alts, parseRegex (reversePatternStr span unk) = some alts := by
      have hj := parse_join_total revConnStr revConnToks connLazyE headOk_revConnStr
        tokenize_revConn assemble_connL
        (((pySplit span unk).map (fun it => (pyStrip it).reverse)).reverse) hfragsafe2
      have heq : ((pySplit span unk).map (fun it => clean_wildcard (pyStrip it).reverse)).reverse =
          ((((pySplit span unk).map (fun it => (pyStrip it).reverse)).reverse).map
            clean_wildcard) := by
        simp [List.map_reverse, List.map_map, Function.comp]
      rw [reversePatternStr, heq]
      exact hj
    rcases hfwd with ⟨fAlts, hfwd⟩
    rcases hrev with ⟨rAlts, hrev⟩
    have hbody : fix_unk_from_text_without_tokenizer span text unk =
        (match reSearch rAlts text.reverse with
         | none => Except.ok span
         | some m => Except.ok (pyStrip m.reverse)) := by
      unfold fix_unk_from_text_without_tokenizer
      rw [if_neg h1, if_neg hu]
      simp only [hfwd, hrev]
    rcases hsr : reSearch rAlts text.reverse with _ | m
    · exact ⟨span, by rw [hbody, hsr]⟩
    · exact ⟨pyStrip m.reverse, by rw [hbody, hsr]⟩

/-- Witness for C5 at a concrete input. -/
theorem c5_witness :
    ∃ r, fix_unk_from_text_without_tokenizer "a<unk>b".toList "zzz".toList "<unk>".toList =
      Except.ok r :=
  c5_no_error_on_safe_spans "a<unk>b".toList "zzz".toList "<unk>".toList (by decide) (by decide)

/-- Counterexample to C5 as stated: `clean_wildcard` does not escape the
backslash or braces.  The span `"<unk>\"` makes the forward pattern end in a
bare backslash ("bad escape"), and the span `"a{2,1}<unk>b"` gives it the brace
quantifier `a{2,1}` ("min repeat greater than max repeat"); in both cases
`re.search` raises `re.error` (modelled as `.error ()`) instead of returning a
string.  Both verified against CPython `re`. -/
theorem c5_counterexample :
    fix_unk_from_text_without_tokenizer "<unk>\\".toList "abc".toList "<unk>".toList =
      Except.error () ∧
    fix_unk_from_text_without_tokenizer "a{2,1}<unk>b".toList "abc".toList "<unk>".toList =
      Except.error () :=
  ⟨rfl, rfl⟩

theorem takeWhile_len_le (p : Char → Bool) :
    ∀ l : List Char, (l.takeWhile p).length ≤ l.length := by
  intro l
  induction l with
  | nil => simp
  | cons d l' ih =>
    rw [List.takeWhile_cons]
    by_cases h : p d
    · rw [if_pos h]
      simpa using ih
    · rw [if_neg h]
      simp

theorem take_length_takeWhile (p : Char → Bool) :
    ∀ l : List Char, l.take (l.takeWhile p).length = l.takeWhile p := by
  intro l
  induction l with
  | nil => rfl
  | cons d l' ih =>
    rw [List.takeWhile_cons]
    by_cases h : p d
    · rw [if_pos h]
      simpa using ih
    · rw [if_neg h]
      rfl

theorem takeWhile_all_append {p : Char → Bool} :
    ∀ (a : List Char) (c : Char) (r : List Char), (∀ x ∈ a, p x = true) → p c = false →
      (a ++ c :: r).takeWhile p = a := by
  intro a
  induction a with
  | nil =>
    intro c r _ hc
    rw [List.nil_append, List.takeWhile_cons, hc]
    rfl
  | cons d a' ih =>
    intro c r ha hc
    rw [List.cons_append, List.takeWhile_cons, if_pos (ha d (List.mem_cons_self _ _)),
      ih c r (fun x hx => ha x (List.mem_cons_of_mem _ hx)) hc]

theorem dropWhile_all_append {p : Char → Bool} :
    ∀ (a : List Char) (c : Char) (r : List Char), (∀ x ∈ a, p x = true) → p c = false →
      (a ++ c :: r).dropWhile p = c :: r := by
  intro a
  induction a with
  | nil =>
    intro c r _ hc
    rw [List.nil_append, List.dropWhile_cons, hc]
    rfl
  | cons d a' ih =>
    intro c r ha hc
    rw [List.cons_append, List.dropWhile_cons, if_pos (ha d (List.mem_cons_self _ _)),
      ih c r (fun x hx => ha x (List.mem_cons_of_mem _ hx)) hc]

theorem dropWhile_head_false {p : Char → Bool} :
    ∀ (l : List Char) (c : Char) (r : List Char), l.dropWhile p = c :: r → p c = false := by
  intro l
  induction l with
  | nil => intro c r h; cases h
  | cons d l' ih =>
    intro c r h
    rw [List.dropWhile_cons] at h
    by_cases hd : p d
    · rw [if_pos hd] at h
      exact ih c r h
    · rw [if_neg hd] at h
      cases h
      simpa using hd

theorem tryKs_map {α : Type} (f : Nat → Option α) (g : Nat → Nat) :
    ∀ ks : List Nat, tryKs f (ks.map g) = tryKs (fun k => f (g k)) ks := by
  intro ks
  induction ks with
  | nil => rfl
  | cons k ks' ih =>
    have h2 : tryKs (fun j => f (g j)) (k :: ks') =
        (match f (g k) with
         | some r => some r
         | none => tryKs (fun j => f (g j)) ks') := rfl
    rw [List.map_cons, h2, ← ih]
    rfl

theorem repKs_ws_greedy (s : List Char) :
    repKs RElem.wsChar 0 none false s = ((List.range (wsRun s + 1)).reverse).map (· + 0) := rfl

theorem repKs_nws_lazy (s : List Char) :
    repKs RElem.nwsChar 1 none true s = (List.range (nwsRun s)).map (· + 1) := rfl

theorem reSearch_def (pat : List (List RElem)) (s : List Char) :
    reSearch pat s = reSearchFrom pat s true := rfl

/-- Matching the bare lazy connector at the head of `ws-run ++ c :: r` (with any
anchoring flag): it consumes the whitespace run, the single non-whitespace `c`,
and the whitespace run of `r`. -/
theorem mexec_connLazy_ws_nws (b : Bool) (a : List Char) (c : Char) (r : List Char)
    (ha : ∀ x ∈ a, pySpace x = true) (hc : pySpace c = false) :
    mexec connLazyE b (a ++ c :: r) = some (r.drop (wsRun r)) := by
  have hws : wsRun (a ++ c :: r) = a.length := by
    unfold wsRun
    rw [takeWhile_all_append a c r ha hc]
  show mexec (RElem.repeatR RElem.wsChar 0 none false ::
      [RElem.repeatR RElem.nwsChar 1 none true, RElem.repeatR RElem.wsChar 0 none false])
      b (a ++ c :: r) = _
  rw [mexec_repeatR, repKs_ws_greedy, hws, tryKs_map]
  have hrange : (List.range (a.length + 1)).reverse =
      a.length :: (List.range a.length).reverse := by
    rw [List.range_succ, List.reverse_append]
    rfl
  rw [hrange]
  apply tryKs_cons_some
  show mexec [RElem.repeatR RElem.nwsChar 1 none true, RElem.repeatR RElem.wsChar 0 none false]
      (b && (a.length + 0) == 0) ((a ++ c :: r).drop a.length) = some (r.drop (wsRun r))
  rw [List.drop_left]
  rw [mexec_repeatR, repKs_nws_lazy]
  have hnws : nwsRun (c :: r) = (r.takeWhile (fun x => !pySpace x)).length + 1 := by
    unfold nwsRun
    rw [List.takeWhile_cons, if_pos (by simp [hc])]
    simp
  rw [hnws, List.range_succ_eq_map, tryKs_map]
  apply tryKs_cons_some
  show mexec [RElem.repeatR RElem.wsChar 0 none false]
      ((b && (a.length + 0) == 0) && (0 + 1) == 0) r = some (r.drop (wsRun r))
  rw [mexec_repeatR, repKs_ws_greedy, tryKs_map]
  have hrange2 : (List.range (wsRun r + 1)).reverse =
      wsRun r :: (List.range (wsRun r)).reverse := by
    rw [List.range_succ, List.reverse_append]
    rfl
  rw [hrange2]
  apply tryKs_cons_some
  rfl

/-- The bare lazy connector cannot match all-whitespace text, whatever the
anchoring flag. -/
theorem mexec_connLazy_none (b : Bool) (s : List Char)
    (hs : ∀ x ∈ s, pySpace x = true) : mexec connLazyE b s = none := by
  show mexec (RElem.repeatR RElem.wsChar 0 none false ::
      [RElem.repeatR RElem.nwsChar 1 none true, RElem.repeatR RElem.wsChar 0 none false])
      b s = none
  rw [mexec_repeatR]
  apply tryKs_none
  intro k _
  show mexec [RElem.repeatR RElem.nwsChar 1 none true, RElem.repeatR RElem.wsChar 0 none false]
      (b && k == 0) (s.drop k) = none
  rw [mexec_repeatR, repKs_nws_lazy]
  have hz : nwsRun (s.drop k) = 0 := by
    unfold nwsRun
    rcases hdk : s.drop k with _ | ⟨d, t⟩
    · rfl
    · rw [List.takeWhile_cons, if_neg ?_]
      · rfl
      · have hd : d ∈ s := List.drop_subset _ _ (by rw [hdk]; exact List.mem_cons_self _ _)
        simp [hs d hd]
  rw [hz]
  rfl

/-- The bare lazy connector cannot match anywhere in all-whitespace text. -/
theorem reSearch_connLazy_none :
    ∀ (s : List Char), (∀ x ∈ s, pySpace x = true) → ∀ b : Bool,
      reSearchFrom [connLazyE] s b = none := by
  intro s
  induction s with
  | nil =>
    intro hs b
    rw [reSearchFrom_eq, tryAlts_single, mexec_connLazy_none b [] hs]
  | cons d s' ih =>
    intro hs b
    rw [reSearchFrom_eq, tryAlts_single, mexec_connLazy_none b (d :: s') hs]
    exact ih (fun x hx => hs x (List.mem_cons_of_mem _ hx)) false

/-- Searching the bare lazy connector in `ws-run ++ c :: r` matches at the
first position and returns the run, `c`, and the following whitespace run. -/
theorem reSearch_connLazy_found (b : Bool) (a : List Char) (c : Char) (r : List Char)
    (ha : ∀ x ∈ a, pySpace x = true) (hc : pySpace c = false) :
    reSearchFrom [connLazyE] (a ++ c :: r) b = some (a ++ c :: r.takeWhile pySpace) := by
  rw [reSearchFrom_eq, tryAlts_single, mexec_connLazy_ws_nws b a c r ha hc]
  show some (List.take ((a ++ c :: r).length - (List.drop (wsRun r) r).length) (a ++ c :: r)) =
    some (a ++ c :: List.takeWhile pySpace r)
  congr 1
  have h1 : wsRun r ≤ r.length := takeWhile_len_le pySpace r
  have hlen : (a ++ c :: r).length - (r.drop (wsRun r)).length = a.length + (1 + wsRun r) := by
    simp only [List.length_append, List.length_cons, List.length_drop]
    omega
  rw [hlen, List.take_append_eq_append_take, List.take_of_length_le (by omega)]
  congr 1
  have h2 : a.length + (1 + wsRun r) - a.length = wsRun r + 1 := by omega
  rw [h2, List.take_succ_cons]
  congr 1
  exact take_length_takeWhile pySpace r

theorem isPrefixOf_self : ∀ s : List Char, s.isPrefixOf s = true := by
  intro s
  induction s with
  | nil => rfl
  | cons c t ih => simp [List.isPrefixOf, ih]

theorem findSubIdx_self (s : List Char) : findSubIdx s s = some 0 := by
  rcases s with _ | ⟨c, t⟩
  · rfl
  · rw [findSubIdx.eq_def]
    simp [isPrefixOf_self]

theorem pyStrip_ws_c_ws (w1 w2 : List Char) (c : Char)
    (h1 : ∀ x ∈ w1, pySpace x = true) (h2 : ∀ x ∈ w2, pySpace x = true)
    (hc : pySpace c = false) : pyStrip (w1 ++ c :: w2) = [c] := by
  unfold pyStrip
  rw [dropWhile_all_append w1 c w2 h1 hc, List.reverse_cons,
    dropWhile_all_append w2.reverse c [] (fun x hx => h2 x (List.mem_reverse.mp hx)) hc]
  rfl

/-- C9 — Span equal to the placeholder: `fix_unk_from_text_without_tokenizer`
called with the span being exactly the (nonempty) placeholder returns the last
non-whitespace character of `text` as a one-character string, and returns the
span unchanged when `text` has no non-whitespace character. -/
theorem c9_span_equals_placeholder (unk text : List Char) (hu : unk ≠ []) :
    fix_unk_from_text_without_tokenizer unk text unk =
      Except.ok (match text.reverse.find? (fun c => !pySpace c) with
                 | some c => [c]
                 | none => unk) := by
  rcases List.exists_cons_of_ne_nil hu with ⟨u0, urest, hunk⟩
  have hcont_ne : ¬containsSub unk unk = false := by
    unfold containsSub
    rw [findSubIdx_self]
    simp
  have hnilsplit : ∀ fuel, pySplitAux unk fuel [] = [[]] := by
    intro fuel
    cases fuel with
    | zero => rfl
    | succ n =>
      rw [pySplitAux]
      have hnone : findSubIdx [] unk = none := by rw [hunk]; rfl
      rw [hnone]
  have hsplit : pySplit unk unk = [[], []] := by
    unfold pySplit
    rw [pySplitAux, findSubIdx_self]
    show (List.take 0 unk :: pySplitAux unk unk.length (unk.drop (0 + unk.length))) = [[], []]
    rw [show (0 + unk.length) = unk.length by omega, List.drop_length, hnilsplit]
    rfl
  have hfwdparse : parseRegex (forwardPatternStr unk unk) = some [connGreedyE] := by
    rw [forwardPatternStr, hsplit]
    rfl
  have hrevparse : parseRegex (reversePatternStr unk unk) = some [connLazyE] := by
    rw [reversePatternStr, hsplit]
    rfl
  have hbody : fix_unk_from_text_without_tokenizer unk text unk =
      (match reSearch [connLazyE] text.reverse with
       | none => Except.ok unk
       | some m => Except.ok (pyStrip m.reverse)) := by
    unfold fix_unk_from_text_without_tokenizer
    rw [if_neg hcont_ne, if_neg hu]
    simp only [hfwdparse, hrevparse]
  rcases hdw : text.reverse.dropWhile pySpace with _ | ⟨c, r⟩
  · have hall : ∀ x ∈ text.reverse, pySpace x = true := List.dropWhile_eq_nil_iff.mp hdw
    have hfq : text.reverse.find? (fun c => !pySpace c) = none :=
      List.find?_eq_none.mpr (fun x hx => by simp [hall x hx])
    rw [hbody, reSearch_def, reSearch_connLazy_none _ hall true, hfq]
  · have hc : pySpace c = false := dropWhile_head_false _ c r hdw
    have hdecomp : text.reverse = text.reverse.takeWhile pySpace ++ c :: r := by
      conv_lhs => rw [← List.takeWhile_append_dropWhile pySpace text.reverse]
      rw [hdw]
    have ha : ∀ x ∈ text.reverse.takeWhile pySpace, pySpace x = true :=
      fun x hx => List.mem_takeWhile_imp hx
    have hfq : text.reverse.find? (fun x => !pySpace x) = some c := by
      rw [hdecomp, List.find?_append]
      have h1 : (text.reverse.takeWhile pySpace).find? (fun x => !pySpace x) = none :=
        List.find?_eq_none.mpr (fun x hx => by simp [List.mem_takeWhile_imp hx])
      rw [h1]
      simp [List.find?_cons, hc]
    rw [hbody, hfq, hdecomp, reSearch_def, reSearch_connLazy_found true _ c r ha hc]
    show Except.ok
        (pyStrip ((text.reverse.takeWhile pySpace ++ c :: r.takeWhile pySpace)).reverse) =
      Except.ok [c]
    have hm : (text.reverse.takeWhile pySpace ++ c :: r.takeWhile pySpace).reverse =
        (r.takeWhile pySpace).reverse ++ c :: (text.reverse.takeWhile pySpace).reverse := by
      simp [List.reverse_append]
    rw [hm, pyStrip_ws_c_ws _ _ c
      (fun x hx => List.mem_takeWhile_imp (List.mem_reverse.mp hx))
      (fun x hx => List.mem_takeWhile_imp (List.mem_reverse.mp hx)) hc]

/-- Witness for C9 at a concrete input. -/
theorem c9_witness :
    fix_unk_from_text_without_tokenizer "<unk>".toList "ab ".toList "<unk>".toList =
      Except.ok ['b'] :=
  (c9_span_equals_placeholder "<unk>".toList "ab ".toList (by decide)).trans (by rfl)

/-! ### Helper lemmas: decomposing a successful match of a joined pattern -/

@[simp]
theorem interleave_nil (gs : List (List Char)) : interleave [] gs = [] := rfl

@[simp]
theorem interleave_single (f : List Char) (gs : List (List Char)) :
    interleave [f] gs = f := rfl

end UIE
